import Mathlib

/-!
Verification of the graphviz3d layout program (src/main.rs).

The embedding mirrors the Rust source: the force-relaxation solver
(hierarchy, repulsion, spring passes over a position array), the
dimension-annealing schedule, the attribute policy (label extraction and
shape-based color grouping) and graph-model construction (node map,
edge-list expansion, index lookup).  Machine floats are idealized as real
numbers; panics of the Rust code (slice out of range, `unwrap` on a missing
key) are modelled as `none` results.
-/

namespace Graphviz3d

/-! ## Solver state: positions as node-index → coordinate-index → ℝ -/

/-- The constant `MAX_DIMS: usize = 10` of the source. -/
def MAX_DIMS : ℕ := 10

abbrev Points := ℕ → ℕ → ℝ

/-- The function `points_distance` of the source: Euclidean distance of nodes `i`, `j`
restricted to the first `dims` coordinates. -/
noncomputable def points_distance (p : Points) (i j dims : ℕ) : ℝ :=
  Real.sqrt (∑ k ∈ Finset.range dims, (p j k - p i k) ^ 2)

/-- Add `v` to coordinate `k` of node `i` (one `points[i][k] += v`). -/
def addAt (p : Points) (i k : ℕ) (v : ℝ) : Points :=
  fun a b => if a = i ∧ b = k then p a b + v else p a b

/-- Add `u b` to every active coordinate `b < dims` of node `i`
(the per-axis update loop of the source). -/
def addRow (p : Points) (i dims : ℕ) (u : ℕ → ℝ) : Points :=
  fun a b => if a = i ∧ b < dims then p a b + u b else p a b

/-- One hierarchy ("float") step for edge `(i, j)`:
`if p[i][2] - p[j][2] < float_distance { p[i][2] += s; p[j][2] -= s }`,
with the two updates applied in sequence as in the source. -/
noncomputable def hierarchy_step (fs fd : ℝ) (p : Points) (i j : ℕ) : Points :=
  if p i 2 - p j 2 < fd then addAt (addAt p i 2 fs) j 2 (-fs) else p

/-- One repulsion step for the node pair `(i, j)`:
the source computes `c = rd - length`, `d = c.min(rs) * 0.5 / length.max(0.001)`,
`u_k = (p[j][k] - p[i][k]) * d`, then `p[i][k] -= u_k; p[j][k] += u_k`
for every active axis `k`. -/
noncomputable def repel_step (rd rs : ℝ) (dims : ℕ) (p : Points) (i j : ℕ) : Points :=
  let len := points_distance p i j dims
  if len < rd then
    let d := min (rd - len) rs * 0.5 / max len 0.001
    let u : ℕ → ℝ := fun k => (p j k - p i k) * d
    addRow (addRow p i dims (fun k => -(u k))) j dims u
  else p

/-- One spring step for the edge `(i, j)`:
`c = length - edge_length`, `d = edge_strength * c * -0.5 / length.max(0.001)`,
then the same antisymmetric per-axis update.  The source applies it to every
edge, self-loops included. -/
noncomputable def spring_step (es el : ℝ) (dims : ℕ) (p : Points) (i j : ℕ) : Points :=
  let len := points_distance p i j dims
  let d := es * (len - el) * (-0.5) / max len 0.001
  let u : ℕ → ℝ := fun k => (p j k - p i k) * d
  addRow (addRow p i dims (fun k => -(u k))) j dims u

/-- The unordered pairs `(i, j)`, `i < j < n`, in the order of the nested
`for i { for j in i+1.. }` loops of the source. -/
def repel_pairs (n : ℕ) : List (ℕ × ℕ) :=
  (List.range n).flatMap fun i => (List.range' (i + 1) (n - (i + 1))).map fun j => (i, j)

/-- Hierarchy pass: one `hierarchy_step` per edge, in edge-list order. -/
noncomputable def hierarchy_pass (fs fd : ℝ) (edges : List (ℕ × ℕ)) (p : Points) : Points :=
  edges.foldl (fun q e => hierarchy_step fs fd q e.1 e.2) p

/-- Repulsion pass: one `repel_step` per unordered pair. -/
noncomputable def repel_pass (rd rs : ℝ) (dims n : ℕ) (p : Points) : Points :=
  (repel_pairs n).foldl (fun q e => repel_step rd rs dims q e.1 e.2) p

/-- Spring pass: one `spring_step` per edge, in edge-list order. -/
noncomputable def spring_pass (es el : ℝ) (dims : ℕ) (edges : List (ℕ × ℕ)) (p : Points) : Points :=
  edges.foldl (fun q e => spring_step es el dims q e.1 e.2) p

/-- One inner iteration of the solver: hierarchy pass, then repulsion pass,
then spring pass, exactly in source order. -/
noncomputable def inner_iteration (es el rd rs fs fd : ℝ) (dims n : ℕ)
    (edges : List (ℕ × ℕ)) (p : Points) : Points :=
  spring_pass es el dims edges (repel_pass rd rs dims n (hierarchy_pass fs fd edges p))

/-- The annealing schedule `for dims in (3..MAX_DIMS).rev()`. -/
def dims_schedule : List ℕ := (List.range' 3 (MAX_DIMS - 3)).reverse

/-! ## Basic lemmas about the update helpers -/

theorem addAt_same (p : Points) (i k : ℕ) (v : ℝ) :
    addAt p i k v i k = p i k + v := by
  simp [addAt]

theorem addAt_other (p : Points) (i k : ℕ) (v : ℝ) (a b : ℕ)
    (h : ¬(a = i ∧ b = k)) : addAt p i k v a b = p a b := by
  simp only [addAt, if_neg h]

theorem addRow_same (p : Points) (i dims : ℕ) (u : ℕ → ℝ) (b : ℕ) (hb : b < dims) :
    addRow p i dims u i b = p i b + u b := by
  simp [addRow, hb]

theorem addRow_other (p : Points) (i dims : ℕ) (u : ℕ → ℝ) (a b : ℕ)
    (h : ¬(a = i ∧ b < dims)) : addRow p i dims u a b = p a b := by
  simp only [addRow, if_neg h]

/-! ## Characterization of the three force steps -/

theorem repel_step_of_lt (rd rs : ℝ) (dims : ℕ) (p : Points) (i j : ℕ) (hij : i ≠ j)
    (h : points_distance p i j dims < rd) (k : ℕ) (hk : k < dims) :
    repel_step rd rs dims p i j i k =
      p i k - (p j k - p i k) *
        (min (rd - points_distance p i j dims) rs * 0.5 / max (points_distance p i j dims) 0.001) ∧
    repel_step rd rs dims p i j j k =
      p j k + (p j k - p i k) *
        (min (rd - points_distance p i j dims) rs * 0.5 / max (points_distance p i j dims) 0.001) := by
  simp only [repel_step]
  rw [if_pos h]
  constructor
  · rw [addRow_other _ _ _ _ _ _ (fun hc => hij hc.1), addRow_same _ _ _ _ _ hk]
    ring
  · rw [addRow_same _ _ _ _ _ hk, addRow_other _ _ _ _ _ _ (fun hc => hij hc.1.symm)]

theorem repel_step_of_ge (rd rs : ℝ) (dims : ℕ) (p : Points) (i j : ℕ)
    (h : ¬ points_distance p i j dims < rd) :
    repel_step rd rs dims p i j = p := by
  simp only [repel_step]
  rw [if_neg h]

theorem repel_step_untouched (rd rs : ℝ) (dims : ℕ) (p : Points) (i j a k : ℕ)
    (ha : (a ≠ i ∧ a ≠ j) ∨ dims ≤ k) :
    repel_step rd rs dims p i j a k = p a k := by
  have hi : ¬(a = i ∧ k < dims) := by
    rintro ⟨rfl, hk⟩
    rcases ha with ⟨h1, -⟩ | h
    · exact h1 rfl
    · omega
  have hj : ¬(a = j ∧ k < dims) := by
    rintro ⟨rfl, hk⟩
    rcases ha with ⟨-, h2⟩ | h
    · exact h2 rfl
    · omega
  simp only [repel_step]
  by_cases h : points_distance p i j dims < rd
  · rw [if_pos h, addRow_other _ _ _ _ _ _ hj, addRow_other _ _ _ _ _ _ hi]
  · rw [if_neg h]

theorem spring_step_eq (es el : ℝ) (dims : ℕ) (p : Points) (i j : ℕ) (hij : i ≠ j)
    (k : ℕ) (hk : k < dims) :
    spring_step es el dims p i j i k =
      p i k - (p j k - p i k) *
        (es * (points_distance p i j dims - el) * (-0.5) / max (points_distance p i j dims) 0.001) ∧
    spring_step es el dims p i j j k =
      p j k + (p j k - p i k) *
        (es * (points_distance p i j dims - el) * (-0.5) / max (points_distance p i j dims) 0.001) := by
  simp only [spring_step]
  constructor
  · rw [addRow_other _ _ _ _ _ _ (fun hc => hij hc.1), addRow_same _ _ _ _ _ hk]
    ring
  · rw [addRow_same _ _ _ _ _ hk, addRow_other _ _ _ _ _ _ (fun hc => hij hc.1.symm)]

theorem spring_step_untouched (es el : ℝ) (dims : ℕ) (p : Points) (i j a k : ℕ)
    (ha : (a ≠ i ∧ a ≠ j) ∨ dims ≤ k) :
    spring_step es el dims p i j a k = p a k := by
  have hi : ¬(a = i ∧ k < dims) := by
    rintro ⟨rfl, hk⟩
    rcases ha with ⟨h1, -⟩ | h
    · exact h1 rfl
    · omega
  have hj : ¬(a = j ∧ k < dims) := by
    rintro ⟨rfl, hk⟩
    rcases ha with ⟨-, h2⟩ | h
    · exact h2 rfl
    · omega
  simp only [spring_step]
  rw [addRow_other _ _ _ _ _ _ hj, addRow_other _ _ _ _ _ _ hi]

/-- A self-loop spring edge leaves every coordinate unchanged: the source
subtracts and then adds the same `u` to the same row. -/
theorem spring_step_self (es el : ℝ) (dims : ℕ) (p : Points) (a : ℕ) :
    spring_step es el dims p a a = p := by
  funext x y
  simp only [spring_step, addRow]
  by_cases h : x = a ∧ y < dims
  · rw [if_pos h, if_pos h]
    ring
  · rw [if_neg h, if_neg h]

theorem hierarchy_step_of_lt (fs fd : ℝ) (p : Points) (i j : ℕ) (hij : i ≠ j)
    (h : p i 2 - p j 2 < fd) :
    hierarchy_step fs fd p i j i 2 = p i 2 + fs ∧
    hierarchy_step fs fd p i j j 2 = p j 2 - fs := by
  simp only [hierarchy_step]
  rw [if_pos h]
  constructor
  · rw [addAt_other _ _ _ _ _ _ (fun hc => hij hc.1), addAt_same]
  · rw [addAt_same, addAt_other _ _ _ _ _ _ (fun hc => hij hc.1.symm)]
    ring

theorem hierarchy_step_of_ge (fs fd : ℝ) (p : Points) (i j : ℕ)
    (h : ¬ p i 2 - p j 2 < fd) :
    hierarchy_step fs fd p i j = p := by
  simp only [hierarchy_step]
  rw [if_neg h]

theorem hierarchy_step_untouched (fs fd : ℝ) (p : Points) (i j a k : ℕ)
    (ha : ¬(a = i ∧ k = 2)) (hb : ¬(a = j ∧ k = 2)) :
    hierarchy_step fs fd p i j a k = p a k := by
  simp only [hierarchy_step]
  by_cases h : p i 2 - p j 2 < fd
  · rw [if_pos h, addAt_other _ _ _ _ _ _ hb, addAt_other _ _ _ _ _ _ ha]
  · rw [if_neg h]

/-! ## The pair list of the repulsion pass -/

theorem mem_repel_pairs (n a b : ℕ) : (a, b) ∈ repel_pairs n ↔ a < b ∧ b < n := by
  simp only [repel_pairs, List.mem_flatMap, List.mem_map, List.mem_range, List.mem_range'_1]
  constructor
  · rintro ⟨i, hi, j, hj, hab⟩
    obtain ⟨rfl, rfl⟩ := Prod.mk.injEq .. ▸ hab
    omega
  · rintro ⟨h1, h2⟩
    exact ⟨a, by omega, b, by omega, rfl⟩

theorem repel_pairs_nodup (n : ℕ) : (repel_pairs n).Nodup := by
  rw [repel_pairs, List.nodup_flatMap]
  constructor
  · intro i _
    exact (List.nodup_range' ..).map (fun x y (h : (i, x) = (i, y)) => congrArg Prod.snd h)
  · refine List.Pairwise.imp ?_ (List.nodup_range n)
    intro x y hxy
    simp only [Function.onFun, List.disjoint_left, List.mem_map]
    rintro z ⟨j, -, rfl⟩ ⟨j', -, hz⟩
    exact hxy (congrArg Prod.fst hz).symm

/-- The all-zero configuration, used to instantiate theorems on a concrete input. -/
def zeroPts : Points := fun _ _ => 0

theorem points_distance_zeroPts (i j dims : ℕ) : points_distance zeroPts i j dims = 0 := by
  simp [points_distance, zeroPts]

/-- **C1**: in each inner iteration the repulsion pass processes every unordered
pair of distinct nodes exactly once (self-pairs skipped); a pair closer than
`repelDistance` is displaced antisymmetrically along the per-axis difference
scaled by `min(repelDistance - distance, repelStrength) * 0.5 / max(distance, 0.001)`,
only active coordinates of the two nodes move, and a pair at distance
`≥ repelDistance` is left unchanged by its processing step. -/
theorem c1_repulsion_force (rd rs : ℝ) (dims n : ℕ) (p : Points) (i j : ℕ) (hij : i ≠ j) :
    (∀ a b : ℕ, (a, b) ∈ repel_pairs n ↔ a < b ∧ b < n) ∧
    (repel_pairs n).Nodup ∧
    (∀ a : ℕ, (a, a) ∉ repel_pairs n) ∧
    (points_distance p i j dims < rd →
      ∀ k, k < dims →
        repel_step rd rs dims p i j i k = p i k - (p j k - p i k) *
          (min (rd - points_distance p i j dims) rs * 0.5 /
            max (points_distance p i j dims) 0.001) ∧
        repel_step rd rs dims p i j j k = p j k + (p j k - p i k) *
          (min (rd - points_distance p i j dims) rs * 0.5 /
            max (points_distance p i j dims) 0.001) ∧
        repel_step rd rs dims p i j i k - p i k =
          -(repel_step rd rs dims p i j j k - p j k)) ∧
    (∀ a k, ((a ≠ i ∧ a ≠ j) ∨ dims ≤ k) → repel_step rd rs dims p i j a k = p a k) ∧
    (¬ points_distance p i j dims < rd → repel_step rd rs dims p i j = p) ∧
    repel_pass rd rs dims n p =
      (repel_pairs n).foldl (fun q e => repel_step rd rs dims q e.1 e.2) p := by
  refine ⟨fun a b => mem_repel_pairs n a b, repel_pairs_nodup n, ?_, ?_,
    fun a k ha => repel_step_untouched rd rs dims p i j a k ha,
    repel_step_of_ge rd rs dims p i j, rfl⟩
  · intro a h
    exact absurd ((mem_repel_pairs n a a).1 h).1 (lt_irrefl a)
  · intro h k hk
    obtain ⟨h1, h2⟩ := repel_step_of_lt rd rs dims p i j hij h k hk
    refine ⟨h1, h2, ?_⟩
    rw [h1, h2]
    ring

theorem c1_repulsion_force_witness :
    (0 : ℕ) ≠ 1 ∧
    points_distance zeroPts 0 1 3 < 2 ∧
    repel_step 2 0.1 3 zeroPts 0 1 0 0 - zeroPts 0 0 =
      -(repel_step 2 0.1 3 zeroPts 0 1 1 0 - zeroPts 1 0) := by
  have hlt : points_distance zeroPts 0 1 3 < 2 := by
    rw [points_distance_zeroPts]
    norm_num
  exact ⟨by norm_num, hlt,
    ((c1_repulsion_force 2 0.1 3 2 zeroPts 0 1 (by norm_num)).2.2.2.1 hlt 0
      (by norm_num)).2.2⟩

/-- **C2**: in each inner iteration the spring pass handles every edge: its
endpoints are displaced antisymmetrically along the per-axis difference scaled
by `edgeStrength * (distance - edgeRestLength) * -0.5 / max(distance, 0.001)`,
only active coordinates of the endpoints move, and a self-loop edge contributes
zero net displacement. -/
theorem c2_spring_force (es el : ℝ) (dims : ℕ) (edges : List (ℕ × ℕ)) (p : Points) (i j : ℕ)
    (hij : i ≠ j) :
    (∀ k, k < dims →
      spring_step es el dims p i j i k = p i k - (p j k - p i k) *
        (es * (points_distance p i j dims - el) * (-0.5) /
          max (points_distance p i j dims) 0.001) ∧
      spring_step es el dims p i j j k = p j k + (p j k - p i k) *
        (es * (points_distance p i j dims - el) * (-0.5) /
          max (points_distance p i j dims) 0.001) ∧
      spring_step es el dims p i j i k - p i k =
        -(spring_step es el dims p i j j k - p j k)) ∧
    (∀ a k, ((a ≠ i ∧ a ≠ j) ∨ dims ≤ k) → spring_step es el dims p i j a k = p a k) ∧
    (∀ a, spring_step es el dims p a a = p) ∧
    spring_pass es el dims edges p =
      edges.foldl (fun q e => spring_step es el dims q e.1 e.2) p := by
  refine ⟨?_, fun a k ha => spring_step_untouched es el dims p i j a k ha,
    fun a => spring_step_self es el dims p a, rfl⟩
  intro k hk
  obtain ⟨h1, h2⟩ := spring_step_eq es el dims p i j hij k hk
  refine ⟨h1, h2, ?_⟩
  rw [h1, h2]
  ring

theorem c2_spring_force_witness :
    (0 : ℕ) ≠ 1 ∧
    spring_step 0.1 1 3 zeroPts 0 1 0 0 - zeroPts 0 0 =
      -(spring_step 0.1 1 3 zeroPts 0 1 1 0 - zeroPts 1 0) ∧
    spring_step 0.1 1 3 zeroPts 5 5 = zeroPts := by
  have h := c2_spring_force 0.1 1 3 [] zeroPts 0 1 (by norm_num)
  exact ⟨by norm_num, (h.1 0 (by norm_num)).2.2, h.2.2.1 5⟩

/-- **C3**: once per inner iteration, before the repulsion and spring passes,
the hierarchy pass nudges for every edge (parent → child) whose signed vertical
separation `parent.z - child.z` is below `hierarchyDistance` the parent's 3rd
coordinate up by exactly `hierarchyStrength` and the child's 3rd coordinate
down by exactly `hierarchyStrength` (a constant-magnitude nudge, identical for
every edge); no other coordinate is touched by this pass. -/
theorem c3_hierarchy_force (fs fd : ℝ) (edges : List (ℕ × ℕ)) (p : Points) (i j : ℕ)
    (hij : i ≠ j) :
    (p i 2 - p j 2 < fd →
      hierarchy_step fs fd p i j i 2 = p i 2 + fs ∧
      hierarchy_step fs fd p i j j 2 = p j 2 - fs) ∧
    (∀ a k, ¬(a = i ∧ k = 2) → ¬(a = j ∧ k = 2) → hierarchy_step fs fd p i j a k = p a k) ∧
    (¬ p i 2 - p j 2 < fd → hierarchy_step fs fd p i j = p) ∧
    (∀ es el rd rs dims n q, inner_iteration es el rd rs fs fd dims n edges q =
      spring_pass es el dims edges (repel_pass rd rs dims n (hierarchy_pass fs fd edges q))) ∧
    hierarchy_pass fs fd edges p =
      edges.foldl (fun q e => hierarchy_step fs fd q e.1 e.2) p := by
  exact ⟨hierarchy_step_of_lt fs fd p i j hij,
    fun a k ha hb => hierarchy_step_untouched fs fd p i j a k ha hb,
    hierarchy_step_of_ge fs fd p i j,
    fun es el rd rs dims n q => rfl, rfl⟩

theorem c3_hierarchy_force_witness :
    (0 : ℕ) ≠ 1 ∧
    zeroPts 0 2 - zeroPts 1 2 < 2 ∧
    hierarchy_step 1 2 zeroPts 0 1 0 2 = zeroPts 0 2 + 1 ∧
    hierarchy_step 1 2 zeroPts 0 1 1 2 = zeroPts 1 2 - 1 := by
  have hlt : zeroPts 0 2 - zeroPts 1 2 < 2 := by
    simp [zeroPts]
  have h := (c3_hierarchy_force 1 2 [] zeroPts 0 1 (by norm_num)).1 hlt
  exact ⟨by norm_num, hlt, h.1, h.2⟩

/-- C4 helper: the concrete value of the schedule. -/
theorem dims_schedule_eq : dims_schedule = [9, 8, 7, 6, 5, 4, 3] := by decide

/-- **C4**: the annealing schedule starts at `MAX_DIMS - 1`, is monotonically
non-increasing (in fact strictly decreasing), never drops below 3, reaches the
phase with `activeDims = 3`, and that phase is the last one: after it the
solver stops. -/
theorem c4_dims_schedule :
    dims_schedule.head? = some (MAX_DIMS - 1) ∧
    dims_schedule.Pairwise (fun a b => b ≤ a) ∧
    (∀ d ∈ dims_schedule, 3 ≤ d) ∧
    3 ∈ dims_schedule ∧
    dims_schedule.getLast? = some 3 := by decide

/-! ## Attribute policy: labels and colors -/

abbrev Str := List Char

abbrev Color := ℕ × ℕ × ℕ

/-- The `HashMap<String, ColorRGBA>` keyed by shape value, as an association
list in insertion order. -/
abbrev CMap := List (Str × Color)

/-- Association-list lookup (first match). -/
def alookup {α : Type} (k : Str) : List (Str × α) → Option α
  | [] => none
  | kv :: rest => if kv.1 = k then some kv.2 else alookup k rest

/-- Index of the last occurrence of `c` in `s` (Rust `rfind`). -/
def rfindIdx (c : Char) : Str → Option ℕ
  | [] => none
  | a :: rest =>
    match rfindIdx c rest with
    | some i => some (i + 1)
    | none => if a = c then some 0 else none

/-- Index of the first occurrence of `c` in `s` (Rust `find`). -/
def ffindIdx (c : Char) : Str → Option ℕ
  | [] => none
  | a :: rest => if a = c then some 0 else (ffindIdx c rest).map (· + 1)

/-- The start of the label slice: one past the last `/`, else one past the
first `"`, else 0. -/
def label_start (s : Str) : ℕ :=
  match rfindIdx '/' s with
  | some i => i + 1
  | none =>
    match ffindIdx '"' s with
    | some i => i + 1
    | none => 0

/-- The end of the label slice: the last `"`, else the length of `s`. -/
def label_end (s : Str) : ℕ := (rfindIdx '"' s).getD s.length

/-- The slice `s[start..end]` of the source; `none` models the Rust slice panic when
the start index exceeds the end index. -/
def extract_label (s : Str) : Option Str :=
  if label_start s ≤ label_end s then
    some ((s.drop (label_start s)).take (label_end s - label_start s))
  else none

/-- A node declaration: normalized identity and ordered attribute list. -/
structure NodeDecl where
  id : Str
  attrs : List (Str × Str)
deriving DecidableEq

def labelKey : Str := "label".toList

def shapeKey : Str := "shape".toList

/-- One step of the per-node attribute loop: a `"label"` attribute re-derives
the label (and can panic, modelled as `none`), a `"shape"` attribute applies
the color-grouping rule, every other attribute is ignored. -/
def step_attr (a : Str × Str) (st : Color × Str × CMap) : Option (Color × Str × CMap) :=
  if a.1 = labelKey then
    match extract_label a.2 with
    | some l => some (st.1, l, st.2.2)
    | none => none
  else if a.1 = shapeKey then
    match alookup a.2 st.2.2 with
    | some c => some (c, st.2.1, st.2.2)
    | none => some (st.1, st.2.1, st.2.2 ++ [(a.2, st.1)])
  else some st

def scan_attrs : List (Str × Str) → Color × Str × CMap → Option (Color × Str × CMap)
  | [], st => some st
  | a :: rest, st =>
    match step_attr a st with
    | none => none
    | some st2 => scan_attrs rest st2

/-- Process one node: start from a fresh random color and the node's identity
string as default label, then scan the attribute list in order. -/
def process_node (fresh : Color) (nd : NodeDecl) (m : CMap) : Option (Color × Str × CMap) :=
  scan_attrs nd.attrs (fresh, nd.id, m)

/-- Process all nodes in order; node number `k` consumes the `k`-th random
color of the stream. -/
def process_nodes (fresh : ℕ → Color) : ℕ → List NodeDecl → CMap →
    Option (List Color × List Str × CMap)
  | _, [], m => some ([], [], m)
  | k, nd :: rest, m =>
    match process_node (fresh k) nd m with
    | none => none
    | some (c, l, m2) =>
      match process_nodes fresh (k + 1) rest m2 with
      | none => none
      | some (cs, ls, m3) => some (c :: cs, l :: ls, m3)

/-- The value of the first `"shape"` attribute of an attribute list, if any. -/
def findShape (attrs : List (Str × Str)) : Option Str :=
  (attrs.find? fun a => a.1 == shapeKey).map fun a => a.2

/-- Number of `"shape"` attributes in an attribute list. -/
def count_shape (attrs : List (Str × Str)) : ℕ :=
  (attrs.filter fun a => a.1 == shapeKey).length

/-! ## Characterization of the find helpers -/

theorem rfindIdx_eq_none (c : Char) (s : Str) : rfindIdx c s = none ↔ c ∉ s := by
  induction s with
  | nil => simp [rfindIdx]
  | cons a rest ih =>
    simp only [rfindIdx]
    cases h : rfindIdx c rest with
    | some i =>
      have hc : c ∈ rest := by
        by_contra hn
        rw [(ih.mpr hn : rfindIdx c rest = none)] at h
        cases h
      simp [hc]
    | none =>
      have hc : c ∉ rest := ih.mp h
      by_cases hac : a = c
      · simp [hac]
      · simp only [if_neg hac, List.mem_cons, true_iff]
        intro hmem
        rcases hmem with rfl | hm2
        · exact hac rfl
        · exact hc hm2

theorem rfindIdx_last (c : Char) (s : Str) (i : ℕ) (h : rfindIdx c s = some i) :
    s[i]? = some c ∧ ∀ j, i < j → s[j]? ≠ some c := by
  induction s generalizing i with
  | nil => cases h
  | cons a rest ih =>
    simp only [rfindIdx] at h
    cases hr : rfindIdx c rest with
    | some i2 =>
      rw [hr] at h
      obtain rfl : i2 + 1 = i := Option.some.inj h
      obtain ⟨h2, h3⟩ := ih i2 hr
      refine ⟨by simpa using h2, ?_⟩
      intro j hj
      cases j with
      | zero => omega
      | succ j2 =>
        simpa using h3 j2 (by omega)
    | none =>
      rw [hr] at h
      have hcr : c ∉ rest := (rfindIdx_eq_none c rest).mp hr
      by_cases hac : a = c
      · rw [if_pos hac] at h
        obtain rfl : 0 = i := Option.some.inj h
        refine ⟨by simpa using hac, ?_⟩
        intro j hj
        cases j with
        | zero => omega
        | succ j2 =>
          simp only [List.getElem?_cons_succ]
          intro hcon
          rcases List.getElem?_eq_some_iff.mp hcon with ⟨hlt, hget⟩
          exact hcr (hget ▸ List.getElem_mem hlt)
      · rw [if_neg hac] at h
        cases h

theorem ffindIdx_eq_none (c : Char) (s : Str) : ffindIdx c s = none ↔ c ∉ s := by
  induction s with
  | nil => simp [ffindIdx]
  | cons a rest ih =>
    simp only [ffindIdx]
    by_cases hac : a = c
    · simp [hac]
    · rw [if_neg hac]
      cases h : ffindIdx c rest with
      | some i =>
        have hc : c ∈ rest := by
          by_contra hn
          rw [(ih.mpr hn : ffindIdx c rest = none)] at h
          cases h
        simp [hc]
      | none =>
        simp only [Option.map_none', true_iff]
        have hc : c ∉ rest := ih.mp h
        intro hmem
        rcases List.mem_cons.mp hmem with rfl | hm2
        · exact hac rfl
        · exact hc hm2

theorem ffindIdx_first (c : Char) (s : Str) (i : ℕ) (h : ffindIdx c s = some i) :
    s[i]? = some c ∧ ∀ j, j < i → s[j]? ≠ some c := by
  induction s generalizing i with
  | nil => cases h
  | cons a rest ih =>
    simp only [ffindIdx] at h
    by_cases hac : a = c
    · rw [if_pos hac] at h
      obtain rfl : 0 = i := Option.some.inj h
      exact ⟨by simpa using hac, fun j hj => by omega⟩
    · rw [if_neg hac] at h
      cases hr : ffindIdx c rest with
      | none =>
        rw [hr] at h
        cases h
      | some i2 =>
        rw [hr] at h
        obtain rfl : i2 + 1 = i := Option.some.inj h
        obtain ⟨h2, h3⟩ := ih i2 hr
        refine ⟨by simpa using h2, ?_⟩
        intro j hj
        cases j with
        | zero =>
          simpa using hac
        | succ j2 =>
          simpa using h3 j2 (by omega)

/-! ## Label assignment -/

theorem scan_attrs_label_free :
    ∀ (attrs : List (Str × Str)) (st : Color × Str × CMap),
    (∀ a ∈ attrs, a.1 ≠ labelKey) →
    ∃ c2 m2, scan_attrs attrs st = some (c2, st.2.1, m2) := by
  intro attrs
  induction attrs with
  | nil => exact fun st _ => ⟨st.1, st.2.2, rfl⟩
  | cons a rest ih =>
    intro st h
    have ha : a.1 ≠ labelKey := h a (List.mem_cons_self a rest)
    have hrest : ∀ b ∈ rest, b.1 ≠ labelKey := fun b hb => h b (List.mem_cons_of_mem a hb)
    simp only [scan_attrs, step_attr, if_neg ha]
    by_cases hs : a.1 = shapeKey
    · rw [if_pos hs]
      cases hl : alookup a.2 st.2.2 with
      | some c => exact ih (c, st.2.1, st.2.2) hrest
      | none => exact ih (st.1, st.2.1, st.2.2 ++ [(a.2, st.1)]) hrest
    · rw [if_neg hs]
      exact ih st hrest

theorem step_attr_label (s : Str) (st : Color × Str × CMap) :
    step_attr (labelKey, s) st =
      match extract_label s with
      | some l => some (st.1, l, st.2.2)
      | none => none := by
  simp [step_attr]

theorem scan_attrs_append (xs ys : List (Str × Str)) (st : Color × Str × CMap) :
    scan_attrs (xs ++ ys) st =
      match scan_attrs xs st with
      | none => none
      | some st2 => scan_attrs ys st2 := by
  induction xs generalizing st with
  | nil => rfl
  | cons a rest ih =>
    simp only [List.cons_append, scan_attrs]
    cases step_attr a st with
    | none => rfl
    | some st2 => exact ih st2

/-- **C5**: for a node with a `"label"` attribute with text `s` the displayed
label is the substring of `s` from one past the last `/` (else one past the
first `"`, else 0) up to the last `"` (else the end of `s`); text with neither
character is kept whole; a node without a `"label"` attribute keeps its own
identity string as label. -/
theorem c5_label_extraction (nd : NodeDecl) (f : Color) (m : CMap) :
    ((∀ a ∈ nd.attrs, a.1 ≠ labelKey) →
      ∃ c2 m2, process_node f nd m = some (c2, nd.id, m2)) ∧
    (∀ pre s post c l m2,
      nd.attrs = pre ++ (labelKey, s) :: post →
      (∀ a ∈ post, a.1 ≠ labelKey) →
      process_node f nd m = some (c, l, m2) →
      some l = extract_label s) ∧
    (∀ s i, rfindIdx '/' s = some i →
      label_start s = i + 1 ∧ s[i]? = some '/' ∧ ∀ j, i < j → s[j]? ≠ some '/') ∧
    (∀ s i, rfindIdx '/' s = none → ffindIdx '"' s = some i →
      label_start s = i + 1 ∧ s[i]? = some '"' ∧ ∀ j, j < i → s[j]? ≠ some '"') ∧
    (∀ s : Str, '/' ∉ s → '"' ∉ s → label_start s = 0 ∧ label_end s = s.length ∧
      extract_label s = some s) ∧
    (∀ s i, rfindIdx '"' s = some i →
      label_end s = i ∧ s[i]? = some '"' ∧ ∀ j, i < j → s[j]? ≠ some '"') ∧
    (∀ s : Str, '"' ∉ s → label_end s = s.length) ∧
    (∀ s : Str, label_start s ≤ label_end s →
      extract_label s = some ((s.drop (label_start s)).take (label_end s - label_start s))) := by
  refine ⟨?_, ?_, ?_, ?_, ?_, ?_, ?_, ?_⟩
  · intro h
    exact scan_attrs_label_free nd.attrs (f, nd.id, m) h
  · intro pre s post c l m2 hattrs hpost hres
    rw [process_node, hattrs, scan_attrs_append] at hres
    cases hpre : scan_attrs pre (f, nd.id, m) with
    | none =>
      rw [hpre] at hres
      cases hres
    | some st1 =>
      rw [hpre] at hres
      simp only [scan_attrs, step_attr_label] at hres
      cases hx : extract_label s with
      | none =>
        rw [hx] at hres
        cases hres
      | some l1 =>
        rw [hx] at hres
        obtain ⟨c2, m3, hscan⟩ := scan_attrs_label_free post (st1.1, l1, st1.2.2) hpost
        have h3 := Option.some.inj (hscan.symm.trans hres)
        have h4 : l1 = l := congrArg (fun t => t.2.1) h3
        rw [← h4]
  · intro s i h
    refine ⟨?_, rfindIdx_last '/' s i h⟩
    rw [label_start, h]
  · intro s i h hf
    refine ⟨?_, ffindIdx_first '"' s i hf⟩
    rw [label_start, h, hf]
  · intro s h1 h2
    have hr : rfindIdx '/' s = none := (rfindIdx_eq_none '/' s).mpr h1
    have hf : ffindIdx '"' s = none := (ffindIdx_eq_none '"' s).mpr h2
    have hr2 : rfindIdx '"' s = none := (rfindIdx_eq_none '"' s).mpr h2
    have hs : label_start s = 0 := by rw [label_start, hr, hf]
    have he : label_end s = s.length := by rw [label_end, hr2]; rfl
    refine ⟨hs, he, ?_⟩
    rw [extract_label, hs, he, if_pos (Nat.zero_le _)]
    simp
  · intro s i h
    refine ⟨?_, rfindIdx_last '"' s i h⟩
    rw [label_end, h]
    rfl
  · intro s h
    rw [label_end, (rfindIdx_eq_none '"' s).mpr h]
    rfl
  · intro s h
    rw [extract_label, if_pos h]

/-- The sample label text `"foo/bar"` whose extracted label is `bar`. -/
def sample_label_text : Str := "\"foo/bar\"".toList

def sample_node : NodeDecl := ⟨"n".toList, [(labelKey, sample_label_text)]⟩

theorem c5_label_extraction_witness :
    process_node (0, 0, 0) sample_node [] = some ((0, 0, 0), "bar".toList, []) ∧
    some "bar".toList = extract_label sample_label_text ∧
    extract_label "abc".toList = some "abc".toList := by
  have hp : process_node (0, 0, 0) sample_node [] = some ((0, 0, 0), "bar".toList, []) := rfl
  refine ⟨hp, ?_, ?_⟩
  · exact (c5_label_extraction sample_node (0, 0, 0) []).2.1 [] sample_label_text []
      (0, 0, 0) "bar".toList [] rfl (by decide) hp
  · exact ((c5_label_extraction sample_node (0, 0, 0) []).2.2.2.2.1 "abc".toList
      (by decide) (by decide)).2.2

/-- The malformed label text `"x"/`: its start index is 4 (one past the last
`/`) but its end index is 2 (the last `"`), so the Rust slice `s[4..2]`
panics. -/
def bad_label_text : Str := "\"x\"/".toList

/-- **C6** (code behavior at the failing input): on label text whose computed
end index falls before the start index, extraction is `none` (the Rust
byte-slice panic) and processing of the node aborts, instead of the claimed
non-fatal warning with fallback to the identity string. -/
theorem c6_label_malformed_panics :
    label_start bad_label_text = 4 ∧
    label_end bad_label_text = 2 ∧
    extract_label bad_label_text = none ∧
    process_node (0, 0, 0) ⟨"n".toList, [(labelKey, bad_label_text)]⟩ [] = none :=
  ⟨rfl, rfl, rfl, rfl⟩

/-! ## Color assignment: shape grouping -/

theorem alookup_append_some {α : Type} (k : Str) (m l : List (Str × α)) (c : α)
    (h : alookup k m = some c) : alookup k (m ++ l) = some c := by
  induction m with
  | nil => cases h
  | cons kv rest ih =>
    rw [List.cons_append]
    simp only [alookup] at h ⊢
    by_cases hk : kv.1 = k
    · rwa [if_pos hk] at h ⊢
    · rw [if_neg hk] at h ⊢
      exact ih h

theorem alookup_append_none {α : Type} (k : Str) (m l : List (Str × α))
    (h : alookup k m = none) : alookup k (m ++ l) = alookup k l := by
  induction m with
  | nil => rfl
  | cons kv rest ih =>
    rw [List.cons_append]
    simp only [alookup] at h ⊢
    by_cases hk : kv.1 = k
    · rw [if_pos hk] at h
      cases h
    · rw [if_neg hk] at h ⊢
      exact ih h

theorem alookup_singleton_same {α : Type} (k : Str) (c : α) :
    alookup k [(k, c)] = some c := by
  simp [alookup]

theorem alookup_singleton_ne {α : Type} (k w : Str) (c : α) (h : w ≠ k) :
    alookup k [(w, c)] = none := by
  simp [alookup, h]

theorem shapeKey_ne_labelKey : shapeKey ≠ labelKey := by decide

theorem step_attr_shape (a2 : Str) (st : Color × Str × CMap) :
    step_attr (shapeKey, a2) st =
      match alookup a2 st.2.2 with
      | some c => some (c, st.2.1, st.2.2)
      | none => some (st.1, st.2.1, st.2.2 ++ [(a2, st.1)]) := by
  simp [step_attr, shapeKey_ne_labelKey]

theorem step_attr_other (a : Str × Str) (st : Color × Str × CMap)
    (hl : a.1 ≠ labelKey) (hsh : a.1 ≠ shapeKey) : step_attr a st = some st := by
  simp [step_attr, hl, hsh]

theorem findShape_cons_shape (a : Str × Str) (rest : List (Str × Str)) (h : a.1 = shapeKey) :
    findShape (a :: rest) = some a.2 := by
  rw [findShape, List.find?_cons_of_pos _ (by simp [h])]
  rfl

theorem findShape_cons_other (a : Str × Str) (rest : List (Str × Str)) (h : a.1 ≠ shapeKey) :
    findShape (a :: rest) = findShape rest := by
  rw [findShape, List.find?_cons_of_neg _ (by simp [h]), findShape]

theorem count_shape_cons_shape (a : Str × Str) (rest : List (Str × Str)) (h : a.1 = shapeKey) :
    count_shape (a :: rest) = count_shape rest + 1 := by
  simp [count_shape, List.filter_cons, h]

theorem count_shape_cons_other (a : Str × Str) (rest : List (Str × Str)) (h : a.1 ≠ shapeKey) :
    count_shape (a :: rest) = count_shape rest := by
  simp [count_shape, List.filter_cons, h]

theorem count_shape_zero (attrs : List (Str × Str)) (h : count_shape attrs = 0) :
    ∀ b ∈ attrs, b.1 ≠ shapeKey := by
  intro b hb hbs
  have hmem : b ∈ attrs.filter fun a => a.1 == shapeKey :=
    List.mem_filter.mpr ⟨hb, by simp [hbs]⟩
  rw [count_shape, List.length_eq_zero] at h
  rw [h] at hmem
  cases hmem

theorem scan_attrs_shape_free :
    ∀ (attrs : List (Str × Str)) (st st2 : Color × Str × CMap),
    (∀ a ∈ attrs, a.1 ≠ shapeKey) →
    scan_attrs attrs st = some st2 →
    st2.1 = st.1 ∧ st2.2.2 = st.2.2 := by
  intro attrs
  induction attrs with
  | nil =>
    intro st st2 _ h
    obtain rfl := Option.some.inj h
    exact ⟨rfl, rfl⟩
  | cons a rest ih =>
    intro st st2 h hs
    have ha : a.1 ≠ shapeKey := h a (List.mem_cons_self a rest)
    have hrest : ∀ b ∈ rest, b.1 ≠ shapeKey := fun b hb => h b (List.mem_cons_of_mem a hb)
    simp only [scan_attrs] at hs
    by_cases hl : a.1 = labelKey
    · have hpair : a = (labelKey, a.2) := by
        rw [← hl]
      rw [hpair, step_attr_label] at hs
      cases hx : extract_label a.2 with
      | none =>
        rw [hx] at hs
        cases hs
      | some l =>
        rw [hx] at hs
        exact ih (st.1, l, st.2.2) st2 hrest hs
    · rw [step_attr_other a st hl ha] at hs
      exact ih st st2 hrest hs

theorem scan_attrs_color :
    ∀ (attrs : List (Str × Str)) (st st2 : Color × Str × CMap),
    count_shape attrs ≤ 1 →
    scan_attrs attrs st = some st2 →
    (findShape attrs = none → st2.1 = st.1 ∧ st2.2.2 = st.2.2) ∧
    (∀ v, findShape attrs = some v →
      (∀ c0, alookup v st.2.2 = some c0 → st2.1 = c0 ∧ st2.2.2 = st.2.2) ∧
      (alookup v st.2.2 = none → st2.1 = st.1 ∧ st2.2.2 = st.2.2 ++ [(v, st.1)])) := by
  intro attrs
  induction attrs with
  | nil =>
    intro st st2 _ h
    obtain rfl := Option.some.inj h
    refine ⟨fun _ => ⟨rfl, rfl⟩, fun v hv => ?_⟩
    cases hv
  | cons a rest ih =>
    intro st st2 hone hs
    simp only [scan_attrs] at hs
    by_cases hsh : a.1 = shapeKey
    · have hfind := findShape_cons_shape a rest hsh
      have hzero : count_shape rest = 0 := by
        rw [count_shape_cons_shape a rest hsh] at hone
        omega
      have hnorest := count_shape_zero rest hzero
      have hpair : a = (shapeKey, a.2) := by rw [← hsh]
      rw [hpair, step_attr_shape] at hs
      refine ⟨fun hput => ?_, fun v hv => ?_⟩
      · rw [hfind] at hput
        cases hput
      · obtain rfl : a.2 = v := Option.some.inj (hfind.symm.trans hv)
        constructor
        · intro c0 hc0
          rw [hc0] at hs
          exact scan_attrs_shape_free rest (c0, st.2.1, st.2.2) st2 hnorest hs
        · intro hn
          rw [hn] at hs
          exact scan_attrs_shape_free rest
            (st.1, st.2.1, st.2.2 ++ [(a.2, st.1)]) st2 hnorest hs
    · have hfind := findShape_cons_other a rest hsh
      have hone2 : count_shape rest ≤ 1 := by
        rwa [count_shape_cons_other a rest hsh] at hone
      by_cases hl : a.1 = labelKey
      · have hpair : a = (labelKey, a.2) := by rw [← hl]
        rw [hpair, step_attr_label] at hs
        cases hx : extract_label a.2 with
        | none =>
          rw [hx] at hs
          cases hs
        | some l =>
          rw [hx] at hs
          rw [hfind]
          exact ih (st.1, l, st.2.2) st2 hone2 hs
      · rw [step_attr_other a st hl hsh] at hs
        rw [hfind]
        exact ih st st2 hone2 hs

theorem process_nodes_cons (fresh : ℕ → Color) (k : ℕ) (nd : NodeDecl) (rest : List NodeDecl)
    (m : CMap) (cs : List Color) (ls : List Str) (m2 : CMap)
    (h : process_nodes fresh k (nd :: rest) m = some (cs, ls, m2)) :
    ∃ c1 l1 m3 cs2 ls2,
      process_node (fresh k) nd m = some (c1, l1, m3) ∧
      process_nodes fresh (k + 1) rest m3 = some (cs2, ls2, m2) ∧
      cs = c1 :: cs2 ∧ ls = l1 :: ls2 := by
  simp only [process_nodes] at h
  cases hp : process_node (fresh k) nd m with
  | none =>
    rw [hp] at h
    cases h
  | some r =>
    obtain ⟨c1, l1, m3⟩ := r
    rw [hp] at h
    have h2 : (match process_nodes fresh (k + 1) rest m3 with
        | none => none
        | some (cs2, ls2, m4) => some (c1 :: cs2, l1 :: ls2, m4)) = some (cs, ls, m2) := h
    cases hq : process_nodes fresh (k + 1) rest m3 with
    | none =>
      rw [hq] at h2
      cases h2
    | some r2 =>
      obtain ⟨cs2, ls2, m4⟩ := r2
      rw [hq] at h2
      have hinj := Option.some.inj h2
      simp only [Prod.mk.injEq] at hinj
      obtain ⟨rfl, rfl, rfl⟩ := hinj
      exact ⟨c1, l1, m3, cs2, ls2, rfl, hq, rfl, rfl⟩

theorem process_nodes_length (fresh : ℕ → Color) :
    ∀ (nds : List NodeDecl) (k : ℕ) (m : CMap) (cs : List Color) (ls : List Str) (m2 : CMap),
    process_nodes fresh k nds m = some (cs, ls, m2) →
    cs.length = nds.length ∧ ls.length = nds.length := by
  intro nds
  induction nds with
  | nil =>
    intro k m cs ls m2 h
    have hinj := Option.some.inj h
    simp only [Prod.mk.injEq] at hinj
    obtain ⟨rfl, rfl, rfl⟩ := hinj
    exact ⟨rfl, rfl⟩
  | cons nd rest ih =>
    intro k m cs ls m2 h
    obtain ⟨c1, l1, m3, cs2, ls2, hp, hq, rfl, rfl⟩ := process_nodes_cons fresh k nd rest m cs ls m2 h
    obtain ⟨ih1, ih2⟩ := ih (k + 1) m3 cs2 ls2 m2 hq
    simp [ih1, ih2]

theorem process_nodes_persist (fresh : ℕ → Color) (v : Str) (c : Color) :
    ∀ (nds : List NodeDecl) (k : ℕ) (m : CMap) (cs : List Color) (ls : List Str) (m2 : CMap),
    (∀ b ∈ nds, count_shape b.attrs ≤ 1) →
    process_nodes fresh k nds m = some (cs, ls, m2) →
    alookup v m = some c →
    (∀ (j : ℕ) (nd : NodeDecl), nds[j]? = some nd → findShape nd.attrs = some v →
      cs[j]? = some c) ∧
    alookup v m2 = some c := by
  intro nds
  induction nds with
  | nil =>
    intro k m cs ls m2 _ h hv
    have hinj := Option.some.inj h
    simp only [Prod.mk.injEq] at hinj
    obtain ⟨rfl, rfl, rfl⟩ := hinj
    refine ⟨?_, hv⟩
    intro j nd hj
    cases hj
  | cons nd0 rest ih =>
    intro k m cs ls m2 hone h hv
    obtain ⟨c1, l1, m3, cs2, ls2, hp, hq, rfl, rfl⟩ := process_nodes_cons fresh k nd0 rest m cs ls m2 h
    have hone0 : count_shape nd0.attrs ≤ 1 := hone nd0 (List.mem_cons_self nd0 rest)
    have honerest : ∀ b ∈ rest, count_shape b.attrs ≤ 1 :=
      fun b hb => hone b (List.mem_cons_of_mem nd0 hb)
    have hchar := scan_attrs_color nd0.attrs (fresh k, nd0.id, m) (c1, l1, m3) hone0 hp
    have key : alookup v m3 = some c ∧ (findShape nd0.attrs = some v → c1 = c) := by
      cases hf : findShape nd0.attrs with
      | none =>
        obtain ⟨-, hm⟩ := hchar.1 hf
        have hm2 : m3 = m := hm
        refine ⟨by rw [hm2]; exact hv, fun hcon => ?_⟩
        cases hcon
      | some w =>
        have hc2 := hchar.2 w hf
        by_cases hwv : w = v
        · subst hwv
          obtain ⟨h1, h2⟩ := hc2.1 c hv
          have hm2 : m3 = m := h2
          exact ⟨by rw [hm2]; exact hv, fun _ => h1⟩
        · cases halo : alookup w m with
          | some c0 =>
            obtain ⟨-, h2⟩ := hc2.1 c0 halo
            have hm2 : m3 = m := h2
            exact ⟨by rw [hm2]; exact hv,
              fun hcon => absurd (Option.some.inj hcon) hwv⟩
          | none =>
            obtain ⟨-, h2⟩ := hc2.2 halo
            have hm2 : m3 = m ++ [(w, fresh k)] := h2
            refine ⟨?_, fun hcon => absurd (Option.some.inj hcon) hwv⟩
            rw [hm2]
            exact alookup_append_some v m _ c hv
    obtain ⟨hm3, hc1⟩ := key
    obtain ⟨ihj, ihm⟩ := ih (k + 1) m3 cs2 ls2 m2 honerest hq hm3
    refine ⟨?_, ihm⟩
    intro j nd2 hj hf2
    cases j with
    | zero =>
      have hnd : nd0 = nd2 := by simpa using hj
      subst hnd
      simpa using hc1 hf2
    | succ j2 =>
      simpa using ihj j2 nd2 (by simpa using hj) hf2

theorem process_nodes_first (fresh : ℕ → Color) (v : Str) :
    ∀ (nds : List NodeDecl) (k : ℕ) (m : CMap) (cs : List Color) (ls : List Str) (m2 : CMap)
      (i : ℕ) (nd : NodeDecl),
    (∀ b ∈ nds, count_shape b.attrs ≤ 1) →
    process_nodes fresh k nds m = some (cs, ls, m2) →
    alookup v m = none →
    nds[i]? = some nd → findShape nd.attrs = some v →
    (∀ (i2 : ℕ) (nd2 : NodeDecl), i2 < i → nds[i2]? = some nd2 →
      findShape nd2.attrs ≠ some v) →
    cs[i]? = some (fresh (k + i)) ∧
    (∀ (j : ℕ) (nd2 : NodeDecl), i < j → nds[j]? = some nd2 → findShape nd2.attrs = some v →
      cs[j]? = some (fresh (k + i))) := by
  intro nds
  induction nds with
  | nil =>
    intro k m cs ls m2 i nd _ _ _ hi
    cases hi
  | cons nd0 rest ih =>
    intro k m cs ls m2 i nd hone h hvnone hi hf hfirst
    obtain ⟨c1, l1, m3, cs2, ls2, hp, hq, rfl, rfl⟩ := process_nodes_cons fresh k nd0 rest m cs ls m2 h
    have hone0 : count_shape nd0.attrs ≤ 1 := hone nd0 (List.mem_cons_self nd0 rest)
    have honerest : ∀ b ∈ rest, count_shape b.attrs ≤ 1 :=
      fun b hb => hone b (List.mem_cons_of_mem nd0 hb)
    have hchar := scan_attrs_color nd0.attrs (fresh k, nd0.id, m) (c1, l1, m3) hone0 hp
    cases i with
    | zero =>
      have hnd : nd0 = nd := by simpa using hi
      subst hnd
      obtain ⟨hc1, hm3⟩ := (hchar.2 v hf).2 hvnone
      have hm3x : m3 = m ++ [(v, fresh k)] := hm3
      have hm3v : alookup v m3 = some (fresh k) := by
        rw [hm3x, alookup_append_none v m _ hvnone]
        exact alookup_singleton_same v (fresh k)
      obtain ⟨persist_j, -⟩ := process_nodes_persist fresh v (fresh k) rest (k + 1)
        m3 cs2 ls2 m2 honerest hq hm3v
      constructor
      · simpa using hc1
      · intro j nd2 hj hj2 hf2
        cases j with
        | zero => omega
        | succ j3 =>
          simpa using persist_j j3 nd2 (by simpa using hj2) hf2
    | succ i2 =>
      have hf0 : findShape nd0.attrs ≠ some v :=
        hfirst 0 nd0 (by omega) (by simp)
      have hm3none : alookup v m3 = none := by
        cases hff : findShape nd0.attrs with
        | none =>
          obtain ⟨-, hm⟩ := hchar.1 hff
          have hm2 : m3 = m := hm
          rw [hm2]
          exact hvnone
        | some w =>
          have hwv : w ≠ v := by
            intro he
            exact hf0 (by rw [hff, he])
          cases halo : alookup w m with
          | some c0 =>
            obtain ⟨-, hm⟩ := (hchar.2 w hff).1 c0 halo
            have hm2 : m3 = m := hm
            rw [hm2]
            exact hvnone
          | none =>
            obtain ⟨-, hm⟩ := (hchar.2 w hff).2 halo
            have hm2 : m3 = m ++ [(w, fresh k)] := hm
            rw [hm2, alookup_append_none v m _ hvnone]
            exact alookup_singleton_ne v w _ hwv
      have hfirst2 : ∀ (i3 : ℕ) (nd2 : NodeDecl), i3 < i2 → rest[i3]? = some nd2 →
          findShape nd2.attrs ≠ some v := by
        intro i3 nd2 h3 hg
        exact hfirst (i3 + 1) nd2 (by omega) (by simpa using hg)
      obtain ⟨ih1, ih2⟩ := ih (k + 1) m3 cs2 ls2 m2 i2 nd honerest hq hm3none
        (by simpa using hi) hf hfirst2
      have hkk : fresh (k + 1 + i2) = fresh (k + (i2 + 1)) := by
        have heq : k + 1 + i2 = k + (i2 + 1) := by omega
        rw [heq]
      constructor
      · rw [← hkk]
        simpa using ih1
      · intro j nd2 hj hj2 hf2
        cases j with
        | zero => omega
        | succ j3 =>
          rw [← hkk]
          simpa using ih2 j3 nd2 (by omega) (by simpa using hj2) hf2

theorem process_nodes_noshape (fresh : ℕ → Color) :
    ∀ (nds : List NodeDecl) (k : ℕ) (m : CMap) (cs : List Color) (ls : List Str) (m2 : CMap)
      (i : ℕ) (nd : NodeDecl),
    (∀ b ∈ nds, count_shape b.attrs ≤ 1) →
    process_nodes fresh k nds m = some (cs, ls, m2) →
    nds[i]? = some nd → findShape nd.attrs = none →
    cs[i]? = some (fresh (k + i)) := by
  intro nds
  induction nds with
  | nil =>
    intro k m cs ls m2 i nd _ _ hi
    cases hi
  | cons nd0 rest ih =>
    intro k m cs ls m2 i nd hone h hi hf
    obtain ⟨c1, l1, m3, cs2, ls2, hp, hq, rfl, rfl⟩ := process_nodes_cons fresh k nd0 rest m cs ls m2 h
    have honerest : ∀ b ∈ rest, count_shape b.attrs ≤ 1 :=
      fun b hb => hone b (List.mem_cons_of_mem nd0 hb)
    cases i with
    | zero =>
      have hnd : nd0 = nd := by simpa using hi
      subst hnd
      have hone0 : count_shape nd0.attrs ≤ 1 := hone nd0 (List.mem_cons_self nd0 rest)
      have hchar := scan_attrs_color nd0.attrs (fresh k, nd0.id, m) (c1, l1, m3) hone0 hp
      obtain ⟨hc1, -⟩ := hchar.1 hf
      simpa using hc1
    | succ i2 =>
      have hkk : fresh (k + 1 + i2) = fresh (k + (i2 + 1)) := by
        have heq : k + 1 + i2 = k + (i2 + 1) := by omega
        rw [heq]
      rw [← hkk]
      simpa using ih (k + 1) m3 cs2 ls2 m2 i2 nd honerest hq (by simpa using hi) hf

/-- **C8**: within one run, colors are grouped by shape value: a node whose
shape value was already seen gets the color recorded when that value was first
seen (the first-seen node's fresh random color); a node with a new shape value
gets and records its own fresh random color; a node without a shape attribute
gets its own fresh random color; exactly one color and one label are produced
per node, before the solver runs. -/
theorem c8_color_grouping (fresh : ℕ → Color) (nds : List NodeDecl) (cs : List Color)
    (ls : List Str) (m2 : CMap)
    (hone : ∀ b ∈ nds, count_shape b.attrs ≤ 1)
    (h : process_nodes fresh 0 nds [] = some (cs, ls, m2)) :
    (∀ (i : ℕ) (nd : NodeDecl) (v : Str), nds[i]? = some nd → findShape nd.attrs = some v →
      (∀ (i2 : ℕ) (nd2 : NodeDecl), i2 < i → nds[i2]? = some nd2 →
        findShape nd2.attrs ≠ some v) →
      cs[i]? = some (fresh i) ∧
      (∀ (j : ℕ) (nd2 : NodeDecl), i < j → nds[j]? = some nd2 →
        findShape nd2.attrs = some v → cs[j]? = some (fresh i))) ∧
    (∀ (i : ℕ) (nd : NodeDecl), nds[i]? = some nd → findShape nd.attrs = none →
      cs[i]? = some (fresh i)) ∧
    cs.length = nds.length ∧ ls.length = nds.length := by
  refine ⟨?_, ?_, process_nodes_length fresh nds 0 [] cs ls m2 h⟩
  · intro i nd v hi hf hfirst
    have hmain := process_nodes_first fresh v nds 0 [] cs ls m2 i nd hone h rfl hi hf hfirst
    simpa using hmain
  · intro i nd hi hf
    simpa using process_nodes_noshape fresh nds 0 [] cs ls m2 i nd hone h hi hf

def witness_fresh : ℕ → Color := fun n => (n, 0, 0)

def witness_nodes : List NodeDecl :=
  [⟨"a".toList, [(shapeKey, "box".toList)]⟩,
   ⟨"b".toList, [(shapeKey, "box".toList)]⟩,
   ⟨"c".toList, []⟩]

theorem c8_color_grouping_witness :
    process_nodes witness_fresh 0 witness_nodes [] =
      some ([(0, 0, 0), (0, 0, 0), (2, 0, 0)],
        ["a".toList, "b".toList, "c".toList],
        [("box".toList, (0, 0, 0))]) ∧
    (∀ b ∈ witness_nodes, count_shape b.attrs ≤ 1) ∧
    ([(0, 0, 0), (0, 0, 0), (2, 0, 0)] : List Color)[1]? = some (witness_fresh 0) ∧
    ([(0, 0, 0), (0, 0, 0), (2, 0, 0)] : List Color)[2]? = some (witness_fresh 2) := by
  have hp : process_nodes witness_fresh 0 witness_nodes [] =
      some ([(0, 0, 0), (0, 0, 0), (2, 0, 0)],
        ["a".toList, "b".toList, "c".toList],
        [("box".toList, (0, 0, 0))]) := rfl
  have hone : ∀ b ∈ witness_nodes, count_shape b.attrs ≤ 1 := by decide
  have h := c8_color_grouping witness_fresh witness_nodes _ _ _ hone hp
  refine ⟨hp, hone, ?_, ?_⟩
  · exact (h.1 0 ⟨"a".toList, [(shapeKey, "box".toList)]⟩ "box".toList rfl rfl
      (fun i2 nd2 h2 _ => absurd h2 (Nat.not_lt_zero i2))).2 1
      ⟨"b".toList, [(shapeKey, "box".toList)]⟩ (by omega) rfl rfl
  · exact h.2.1 2 ⟨"c".toList, []⟩ rfl rfl

/-! ## Graph model construction -/

/-- A vertex of an edge statement: a plain node reference or a subgraph. -/
inductive GVertex where
  | node : Str → GVertex
  | sub : GVertex
deriving DecidableEq

/-- The statement forms the source distinguishes: node declarations, pair
edges, chain edges, everything else ignored. -/
inductive GStmt where
  | node : NodeDecl → GStmt
  | edgePair : GVertex → GVertex → GStmt
  | edgeChain : List GVertex → GStmt
  | other : GStmt
deriving DecidableEq

/-- The pair contributed by two adjacent chain entries: produced exactly when
both are plain node vertices. -/
def vertex_pair : Option GVertex → Option GVertex → Option (Str × Str)
  | some (GVertex.node a), some (GVertex.node b) => some (a, b)
  | _, _ => none

/-- Chain expansion: the source loops `i` over `0..len-1` and pushes the pair
exactly when both `chain[i]` and `chain[i+1]` are plain node vertices. -/
def chain_pairs (chain : List GVertex) : List (Str × Str) :=
  (List.range (chain.length - 1)).filterMap fun i => vertex_pair chain[i]? chain[i + 1]?

/-- The edges contributed by one statement. -/
def stmt_edges : GStmt → List (Str × Str)
  | GStmt.edgePair (GVertex.node a) (GVertex.node b) => [(a, b)]
  | GStmt.edgeChain chain => chain_pairs chain
  | _ => []

/-- All edges of the statement list, in statement order, without
deduplication. -/
def collect_edges (stmts : List GStmt) : List (Str × Str) :=
  stmts.flatMap stmt_edges

/-- The node declarations of the statement list, keyed by identity. -/
def node_decls (stmts : List GStmt) : List (Str × NodeDecl) :=
  stmts.filterMap fun s =>
    match s with
    | GStmt.node nd => some (nd.id, nd)
    | _ => none

/-- Insertion as `HashMap::insert` does it: replace the value of an existing key, else add the
key. -/
def hm_insert (m : List (Str × NodeDecl)) (k : Str) (nd : NodeDecl) :
    List (Str × NodeDecl) :=
  if m.any fun kv => kv.1 == k then
    m.map fun kv => if kv.1 = k then (k, nd) else kv
  else m ++ [(k, nd)]

/-- The node map `HashMap<String, Node>` (iteration order modelled as
first-seen insertion order; no claim depends on the unspecified hash
order). -/
def build_nodes (stmts : List GStmt) : List (Str × NodeDecl) :=
  (node_decls stmts).foldl (fun m kn => hm_insert m kn.1 kn.2) []

def node_keys (stmts : List GStmt) : List Str :=
  (build_nodes stmts).map fun kv => kv.1

def node_values (stmts : List GStmt) : List NodeDecl :=
  (build_nodes stmts).map fun kv => kv.2

/-- The map `node_indices`: each key is mapped to the map's size at insertion time. -/
def assign_indices (keys : List Str) : List (Str × ℕ) :=
  keys.foldl (fun m k => m ++ [(k, m.length)]) []

/-- Index lookup used to build `edges_indices`. -/
def node_index (stmts : List GStmt) (k : Str) : Option ℕ :=
  alookup k (assign_indices (node_keys stmts))

/-- The list `edges_indices`: both endpoint identities are looked up; the `unwrap` of a
missing key is modelled as `none` (the Rust panic). -/
def edge_indices (nidx : Str → Option ℕ) : List (Str × Str) → Option (List (ℕ × ℕ))
  | [] => some []
  | e :: rest =>
    match nidx e.1, nidx e.2 with
    | some i, some j =>
      match edge_indices nidx rest with
      | none => none
      | some l => some ((i, j) :: l)
    | _, _ => none

/-- An input with one declared node `a` and an edge `a → ghost` whose target
has no declaration. -/
def ghost_stmts : List GStmt :=
  [GStmt.node ⟨"a".toList, []⟩,
   GStmt.edgePair (GVertex.node "a".toList) (GVertex.node "ghost".toList)]

/-- **C7** (code behavior at the failing input): an edge whose endpoint has no
node declaration makes index construction abort (`unwrap` of a failed lookup,
modelled as `none`); the abort happens while the model is built, before any
simulation work, so zero frames are emitted — but it is an unchecked panic,
not the claimed tagged `MalformedGraphError` result. -/
theorem c7_unknown_endpoint_aborts :
    collect_edges ghost_stmts = [("a".toList, "ghost".toList)] ∧
    node_index ghost_stmts "a".toList = some 0 ∧
    node_index ghost_stmts "ghost".toList = none ∧
    edge_indices (node_index ghost_stmts) (collect_edges ghost_stmts) = none :=
  ⟨rfl, rfl, rfl, rfl⟩

/-! ## Chain expansion -/

theorem chain_pairs_node_cons (x y : Str) (rest : List Str) :
    chain_pairs (GVertex.node x :: GVertex.node y :: rest.map GVertex.node) =
      (x, y) :: chain_pairs (GVertex.node y :: rest.map GVertex.node) := by
  rw [chain_pairs, chain_pairs]
  simp only [List.length_cons, List.length_map, Nat.add_sub_cancel]
  have hhead : vertex_pair
      (GVertex.node x :: GVertex.node y :: rest.map GVertex.node)[0]?
      (GVertex.node x :: GVertex.node y :: rest.map GVertex.node)[0 + 1]? = some (x, y) := by
    simp [vertex_pair]
  rw [List.range_succ_eq_map,
    @List.filterMap_cons_some ℕ (Str × Str)
      (fun i => vertex_pair
        (GVertex.node x :: GVertex.node y :: rest.map GVertex.node)[i]?
        (GVertex.node x :: GVertex.node y :: rest.map GVertex.node)[i + 1]?)
      0 (List.map Nat.succ (List.range rest.length)) (x, y) hhead,
    List.filterMap_map]
  congr 1
  apply List.filterMap_congr
  intro i hi
  simp only [Function.comp_apply, List.getElem?_cons_succ]

theorem chain_pairs_nodes (ns : List Str) :
    chain_pairs (ns.map GVertex.node) = ns.zip ns.tail := by
  induction ns with
  | nil => rfl
  | cons x rest ih =>
    cases rest with
    | nil =>
      rw [List.map_cons, List.map_nil]
      rfl
    | cons y rest2 =>
      rw [List.map_cons, List.map_cons, chain_pairs_node_cons, ← List.map_cons, ih]
      rfl

theorem zip_getElem {α β : Type} :
    ∀ (l1 : List α) (l2 : List β) (i : ℕ) (x : α) (y : β),
    l1[i]? = some x → l2[i]? = some y → (l1.zip l2)[i]? = some (x, y) := by
  intro l1
  induction l1 with
  | nil =>
    intro l2 i x y h
    cases h
  | cons a rest ih =>
    intro l2 i x y h1 h2
    cases l2 with
    | nil => cases h2
    | cons b rest2 =>
      cases i with
      | zero =>
        obtain rfl : a = x := by simpa using h1
        obtain rfl : b = y := by simpa using h2
        simp [List.zip_cons_cons]
      | succ i2 =>
        simpa using ih rest2 i2 x y (by simpa using h1) (by simpa using h2)

theorem tail_getElem {α : Type} (l : List α) (i : ℕ) : l.tail[i]? = l[i + 1]? := by
  cases l <;> simp

/-- **C9**: edge-list construction: a chain of `k` node endpoints expands to
exactly `k − 1` ordered pairs, one per adjacent pair, in chain order; edge
collection is additive over the statement list and each pair statement
contributes its own pair, so multi-edges are never deduplicated. -/
theorem c9_edge_list (ns : List Str) (stmts1 stmts2 : List GStmt) (a b : Str) :
    chain_pairs (ns.map GVertex.node) = ns.zip ns.tail ∧
    (chain_pairs (ns.map GVertex.node)).length = ns.length - 1 ∧
    (∀ (l : ℕ) (x y : Str), ns[l]? = some x → ns[l + 1]? = some y →
      (chain_pairs (ns.map GVertex.node))[l]? = some (x, y)) ∧
    collect_edges (stmts1 ++ stmts2) = collect_edges stmts1 ++ collect_edges stmts2 ∧
    collect_edges [GStmt.edgePair (GVertex.node a) (GVertex.node b)] = [(a, b)] ∧
    collect_edges (GStmt.edgeChain (ns.map GVertex.node) :: stmts2) =
      ns.zip ns.tail ++ collect_edges stmts2 := by
  have hzip := chain_pairs_nodes ns
  refine ⟨hzip, ?_, ?_, ?_, rfl, ?_⟩
  · rw [hzip, List.length_zip, List.length_tail]
    omega
  · intro l x y h1 h2
    rw [hzip]
    refine zip_getElem ns ns.tail l x y h1 ?_
    rw [tail_getElem]
    exact h2
  · rw [collect_edges, collect_edges, collect_edges, List.flatMap_append]
  · rw [collect_edges, collect_edges, List.flatMap_cons]
    rw [show stmt_edges (GStmt.edgeChain (ns.map GVertex.node)) =
      chain_pairs (ns.map GVertex.node) from rfl, hzip]

def wchain : List Str := ["a".toList, "b".toList, "c".toList]

theorem c9_edge_list_witness :
    chain_pairs (wchain.map GVertex.node) =
      [("a".toList, "b".toList), ("b".toList, "c".toList)] ∧
    (chain_pairs (wchain.map GVertex.node))[0]? = some ("a".toList, "b".toList) := by
  have h := c9_edge_list wchain [] [] [] []
  refine ⟨?_, h.2.2.1 0 "a".toList "b".toList rfl rfl⟩
  rw [h.1]
  rfl

/-! ## Node deduplication -/

theorem hm_insert_keys_of_mem (m : List (Str × NodeDecl)) (k : Str) (nd : NodeDecl)
    (h : (m.any fun kv => kv.1 == k) = true) :
    ((hm_insert m k nd).map fun kv => kv.1) = m.map fun kv => kv.1 := by
  rw [hm_insert, if_pos h, List.map_map]
  apply List.map_congr_left
  intro kv _
  by_cases hk : kv.1 = k <;> simp [Function.comp, hk]

theorem hm_insert_keys_of_not_mem (m : List (Str × NodeDecl)) (k : Str) (nd : NodeDecl)
    (h : (m.any fun kv => kv.1 == k) = false) :
    ((hm_insert m k nd).map fun kv => kv.1) = (m.map fun kv => kv.1) ++ [k] := by
  rw [hm_insert, if_neg (by simp [h]), List.map_append]
  rfl

theorem any_eq_false_not_mem (m : List (Str × NodeDecl)) (k : Str)
    (h : (m.any fun kv => kv.1 == k) = false) : k ∉ m.map fun kv => kv.1 := by
  intro hmem
  obtain ⟨kv, hkv, hk⟩ := List.mem_map.mp hmem
  rw [List.any_eq_false] at h
  have h2 := h kv hkv
  simp [hk] at h2

theorem hm_insert_keys_nodup (m : List (Str × NodeDecl)) (k : Str) (nd : NodeDecl)
    (h : (m.map fun kv => kv.1).Nodup) :
    ((hm_insert m k nd).map fun kv => kv.1).Nodup := by
  cases hany : m.any fun kv => kv.1 == k
  · rw [hm_insert_keys_of_not_mem m k nd hany]
    have hk := any_eq_false_not_mem m k hany
    refine h.append (List.nodup_singleton k) ?_
    intro a ha hb
    rw [List.mem_singleton] at hb
    subst hb
    exact hk ha
  · rw [hm_insert_keys_of_mem m k nd hany]
    exact h

theorem hm_insert_keys_mem (m : List (Str × NodeDecl)) (k : Str) (nd : NodeDecl) (k2 : Str) :
    (k2 ∈ (hm_insert m k nd).map fun kv => kv.1) ↔
      (k2 ∈ m.map fun kv => kv.1) ∨ k2 = k := by
  cases hany : m.any fun kv => kv.1 == k
  · rw [hm_insert_keys_of_not_mem m k nd hany, List.mem_append, List.mem_singleton]
  · rw [hm_insert_keys_of_mem m k nd hany]
    constructor
    · exact Or.inl
    · rintro (h | rfl)
      · exact h
      · rw [List.any_eq_true] at hany
        obtain ⟨kv, hkv, hk⟩ := hany
        rw [beq_iff_eq] at hk
        exact List.mem_map.mpr ⟨kv, hkv, hk⟩

theorem hm_insert_entries (m : List (Str × NodeDecl)) (k : Str) (nd : NodeDecl)
    (kv2 : Str × NodeDecl) (h : kv2 ∈ hm_insert m k nd) :
    kv2 ∈ m ∨ kv2 = (k, nd) := by
  rw [hm_insert] at h
  by_cases hany : (m.any fun kv => kv.1 == k) = true
  · rw [if_pos hany] at h
    obtain ⟨kv, hkv, heq⟩ := List.mem_map.mp h
    by_cases hk : kv.1 = k
    · right
      rw [← heq, if_pos hk]
    · left
      rw [← heq, if_neg hk]
      exact hkv
  · rw [if_neg hany] at h
    rcases List.mem_append.mp h with h1 | h1
    · exact Or.inl h1
    · right
      simpa using h1

theorem build_fold_inv :
    ∀ (decls : List (Str × NodeDecl)) (m : List (Str × NodeDecl)),
    (m.map fun kv => kv.1).Nodup →
    (((decls.foldl (fun m2 kn => hm_insert m2 kn.1 kn.2) m).map fun kv => kv.1).Nodup ∧
    (∀ k2, (k2 ∈ (decls.foldl (fun m2 kn => hm_insert m2 kn.1 kn.2) m).map fun kv => kv.1) ↔
      (k2 ∈ m.map fun kv => kv.1) ∨ ∃ nd, (k2, nd) ∈ decls) ∧
    (∀ kv2, kv2 ∈ decls.foldl (fun m2 kn => hm_insert m2 kn.1 kn.2) m →
      kv2 ∈ m ∨ kv2 ∈ decls)) := by
  intro decls
  induction decls with
  | nil =>
    intro m h
    refine ⟨h, ?_, fun kv2 h2 => Or.inl h2⟩
    intro k2
    constructor
    · exact Or.inl
    · rintro (h1 | ⟨nd, hnd⟩)
      · exact h1
      · cases hnd
  | cons kn rest ih =>
    intro m h
    have hnodup := hm_insert_keys_nodup m kn.1 kn.2 h
    obtain ⟨ih1, ih2, ih3⟩ := ih (hm_insert m kn.1 kn.2) hnodup
    refine ⟨ih1, ?_, ?_⟩
    · intro k2
      rw [List.foldl_cons, ih2 k2, hm_insert_keys_mem m kn.1 kn.2 k2]
      constructor
      · rintro ((h1 | rfl) | ⟨nd, hnd⟩)
        · exact Or.inl h1
        · exact Or.inr ⟨kn.2, List.mem_cons_self kn rest⟩
        · exact Or.inr ⟨nd, List.mem_cons_of_mem kn hnd⟩
      · rintro (h1 | ⟨nd, hnd⟩)
        · exact Or.inl (Or.inl h1)
        · rcases List.mem_cons.mp hnd with heq | hmem
          · exact Or.inl (Or.inr (congrArg Prod.fst heq))
          · exact Or.inr ⟨nd, hmem⟩
    · intro kv2 h2
      rw [List.foldl_cons] at h2
      rcases ih3 kv2 h2 with h3 | h3
      · rcases hm_insert_entries m kn.1 kn.2 kv2 h3 with h4 | h4
        · exact Or.inl h4
        · right
          rw [h4]
          exact List.mem_cons_self kn rest
      · exact Or.inr (List.mem_cons_of_mem kn h3)

theorem map_fst_zip_eq {α β : Type} :
    ∀ (l1 : List α) (l2 : List β), l1.length = l2.length →
    ((l1.zip l2).map fun kv => kv.1) = l1 ∧ ((l1.zip l2).map fun kv => kv.2) = l2 := by
  intro l1
  induction l1 with
  | nil =>
    intro l2 h
    cases l2 with
    | nil => exact ⟨rfl, rfl⟩
    | cons b bs => cases h
  | cons a as ih =>
    intro l2 h
    cases l2 with
    | nil => cases h
    | cons b bs =>
      obtain ⟨h1, h2⟩ := ih bs (by simpa using h)
      rw [List.zip_cons_cons, List.map_cons, List.map_cons, h1, h2]
      exact ⟨rfl, rfl⟩

theorem assign_indices_go :
    ∀ (keys : List Str) (acc : List (Str × ℕ)),
    keys.foldl (fun m k => m ++ [(k, m.length)]) acc =
      acc ++ keys.zip (List.range' acc.length keys.length) := by
  intro keys
  induction keys with
  | nil =>
    intro acc
    simp
  | cons k rest ih =>
    intro acc
    rw [List.foldl_cons, ih (acc ++ [(k, acc.length)]), List.length_cons,
      List.range'_succ, List.zip_cons_cons]
    simp

theorem assign_indices_spec (keys : List Str) :
    ((assign_indices keys).map fun kv => kv.1) = keys ∧
    ((assign_indices keys).map fun kv => kv.2) = List.range keys.length := by
  rw [assign_indices, assign_indices_go keys []]
  simp only [List.nil_append, List.length_nil]
  obtain ⟨h1, h2⟩ := map_fst_zip_eq keys (List.range' 0 keys.length)
    (by rw [List.length_range'])
  exact ⟨h1, by rw [h2, List.range_eq_range']⟩

/-- **C10**: duplicate declarations of one identity collapse to a single node:
the key list of the node map has no duplicates, a key is present exactly when
some declaration declared it, every retained entry is one of the declarations
(so its attributes come from a single declaration), node indices form the
dense range `0 .. count`, and exactly one color and one label are produced per
distinct identity. -/
theorem c10_node_dedup (stmts : List GStmt) :
    (node_keys stmts).Nodup ∧
    (∀ k, k ∈ node_keys stmts ↔ ∃ nd, (k, nd) ∈ node_decls stmts) ∧
    (∀ kv, kv ∈ build_nodes stmts → kv ∈ node_decls stmts) ∧
    ((assign_indices (node_keys stmts)).map fun kv => kv.1) = node_keys stmts ∧
    ((assign_indices (node_keys stmts)).map fun kv => kv.2) =
      List.range (node_keys stmts).length ∧
    (∀ (fresh : ℕ → Color) (cs : List Color) (ls : List Str) (m2 : CMap),
      process_nodes fresh 0 (node_values stmts) [] = some (cs, ls, m2) →
      cs.length = (node_keys stmts).length ∧ ls.length = (node_keys stmts).length) := by
  obtain ⟨h1, h2, h3⟩ := build_fold_inv (node_decls stmts) [] (by simp)
  obtain ⟨h4, h5⟩ := assign_indices_spec (node_keys stmts)
  refine ⟨h1, ?_, ?_, h4, h5, ?_⟩
  · intro k
    have hh := h2 k
    constructor
    · intro hk
      rcases hh.mp hk with h6 | h6
      · cases h6
      · exact h6
    · intro h6
      exact hh.mpr (Or.inr h6)
  · intro kv h
    rcases h3 kv h with h6 | h6
    · cases h6
    · exact h6
  · intro fresh cs ls m2 hp
    have hlen := process_nodes_length fresh (node_values stmts) 0 [] cs ls m2 hp
    have hvk : (node_values stmts).length = (node_keys stmts).length := by
      rw [node_values, node_keys, List.length_map, List.length_map]
    rwa [hvk] at hlen

def dup_stmts : List GStmt :=
  [GStmt.node ⟨"a".toList, [(shapeKey, "box".toList)]⟩,
   GStmt.node ⟨"a".toList, [("color".toList, "red".toList)]⟩,
   GStmt.node ⟨"b".toList, []⟩]

theorem c10_node_dedup_witness :
    node_keys dup_stmts = ["a".toList, "b".toList] ∧
    (node_keys dup_stmts).Nodup ∧
    process_nodes witness_fresh 0 (node_values dup_stmts) [] =
      some ([(0, 0, 0), (1, 0, 0)], ["a".toList, "b".toList], []) ∧
    ([(0, 0, 0), (1, 0, 0)] : List Color).length = (node_keys dup_stmts).length := by
  have hp : process_nodes witness_fresh 0 (node_values dup_stmts) [] =
      some ([(0, 0, 0), (1, 0, 0)], ["a".toList, "b".toList], []) := rfl
  have h := c10_node_dedup dup_stmts
  exact ⟨rfl, h.1, hp, (h.2.2.2.2.2 witness_fresh _ _ _ hp).1⟩

end Graphviz3d
